import Mathlib

set_option maxHeartbeats 1000000

/- Shallow embedding of src/huffman/src/main.rs.

   Rust `Option<Box<HuffmanNode>>` is fused into the single inductive `HTree`:
   `HTree.nil` is Rust `None`, `HTree.node f s l r` is
   `Some(Box::new(HuffmanNode { frequency: f, symbol: s, left: l, right: r }))`.
   Bytes (u8) and usize counts are modelled as Nat; u8 arithmetic that could
   wrap is made explicit with % 256.  The '0'/'1' characters of the Rust code
   strings are modelled as Bool (false = '0', true = '1').
   Functions that can panic (index out of bounds, unwrap) return Option, with
   `none` for the panic.  Recursion that Rust expresses as a loop or as
   slice-consuming recursion is expressed with an explicit fuel argument,
   instantiated so that the fuel never runs out on the call paths the Rust
   code can take. -/

inductive HTree where
  | nil : HTree
  | node (frequency : Nat) (symbol : Option Nat) (left right : HTree) : HTree
  deriving DecidableEq

def HTree.frequency : HTree → Nat
  | .nil => 0
  | .node f _ _ _ => f

def HTree.symbolOf : HTree → Option Nat
  | .nil => none
  | .node _ s _ _ => s

def HTree.leftChild : HTree → HTree
  | .nil => .nil
  | .node _ _ l _ => l

/- `BTreeMap` is modelled as an association list sorted strictly by key;
   `btInsert` keeps the order and replaces an existing binding (BTreeMap
   `insert`), `btLookup` is `get`. -/

def btInsert {α : Type} (k : Nat) (v : α) : List (Nat × α) → List (Nat × α)
  | [] => [(k, v)]
  | (k2, v2) :: rest =>
    if k < k2 then (k, v) :: (k2, v2) :: rest
    else if k = k2 then (k, v) :: rest
    else (k2, v2) :: btInsert k v rest

def btLookup {α : Type} (k : Nat) : List (Nat × α) → Option α
  | [] => none
  | (k2, v) :: rest => if k = k2 then some v else btLookup k rest

/- `*frequencies.entry(byte).or_insert(0) += 1` on the sorted map. -/
def bump : List (Nat × Nat) → Nat → List (Nat × Nat)
  | [], b => [(b, 1)]
  | (k, v) :: rest, b =>
    if b < k then (b, 1) :: (k, v) :: rest
    else if b = k then (k, v + 1) :: rest
    else (k, v) :: bump rest b

/- fn calculate_frequencies(data: &[u8]) -> Vec<(u8, usize)> -/
def calculate_frequencies (data : List Nat) : List (Nat × Nat) :=
  data.foldl bump []

/- `nodes.sort_by_key(|n| n.frequency)`: Rust's sort is stable, so the model
   is the stable insertion sort by frequency. -/
def insertByFreq (x : HTree) : List HTree → List HTree
  | [] => [x]
  | y :: ys => if x.frequency ≤ y.frequency then x :: y :: ys else y :: insertByFreq x ys

def sortByFreq : List HTree → List HTree
  | [] => []
  | x :: xs => insertByFreq x (sortByFreq xs)

/- The `while nodes.len() > 1` loop of build_huffman_tree.  One iteration
   removes the two smallest nodes of the sorted working vector and pushes the
   merged node at the back.  The fuel starts at the initial vector length,
   which bounds the number of iterations (each one shrinks the vector by 1),
   so the fuel-0 fallback coincides with the loop exit `nodes.pop()`. -/
def buildLoop : Nat → List HTree → HTree
  | 0, nodes => nodes.headD .nil
  | fuel + 1, nodes =>
    if 1 < nodes.length then
      let sorted := sortByFreq nodes
      let l := sorted.headD .nil
      let r := (sorted.drop 1).headD .nil
      buildLoop fuel (sorted.drop 2 ++ [HTree.node (l.frequency + r.frequency) none l r])
    else nodes.headD .nil

/- fn build_huffman_tree(frequencies: &[(u8, usize)]) -> Option<Box<HuffmanNode>> -/
def build_huffman_tree (frequencies : List (Nat × Nat)) : HTree :=
  buildLoop frequencies.length
    (frequencies.map (fun p => HTree.node p.2 (some p.1) .nil .nil))

/- fn generate_codes(node, prefix, codes): the accumulated path is the second
   argument, the BTreeMap<u8, String> is the third. -/
def generate_codes : HTree → List Bool → List (Nat × List Bool) → List (Nat × List Bool)
  | .nil, _, codes => codes
  | .node _ (some s) _ _, pfx, codes => btInsert s pfx codes
  | .node _ none l r, pfx, codes =>
      generate_codes r (pfx ++ [true]) (generate_codes l (pfx ++ [false]) codes)

/- fn serialize_tree(node, output): tag 1 + symbol byte for a leaf,
   tag 0 followed by both subtrees for an internal node. -/
def serialize_tree : HTree → List Nat
  | .nil => []
  | .node _ (some s) _ _ => [1, s]
  | .node _ none l r => 0 :: (serialize_tree l ++ serialize_tree r)

/- fn deserialize_tree(data: &mut &[u8]) -> Option<Box<HuffmanNode>>.
   The result pairs the produced tree with the unconsumed remainder of the
   slice; the outer `none` is the panic `data[0]` on an empty slice (tag 1
   with no symbol byte).  The fuel only bounds the recursion depth of the
   model; `deserialize_tree` supplies `length + 1`, which can never be
   exhausted because every recursive call consumes at least one byte first. -/
def deserializeAux : Nat → List Nat → Option (HTree × List Nat)
  | 0, _ => none
  | _ + 1, [] => some (.nil, [])
  | fuel + 1, t :: rest =>
    if t = 1 then
      match rest with
      | [] => none
      | s :: rest2 => some (.node 0 (some s) .nil .nil, rest2)
    else
      match deserializeAux fuel rest with
      | none => none
      | some (l, rest2) =>
        match deserializeAux fuel rest2 with
        | none => none
        | some (r, rest3) => some (.node 0 none l r, rest3)

def deserialize_tree (data : List Nat) : Option (HTree × List Nat) :=
  deserializeAux (data.length + 1) data

/- The bit-packing loop of encode_data: `byte = (byte << 1) | bit`, push each
   full byte, and push `byte << (8 - count)` for a trailing partial byte. -/
def pack_bits : List Bool → Nat → Nat → List Nat
  | [], byte, count => if 0 < count then [(byte <<< (8 - count)) % 256] else []
  | bit :: rest, byte, count =>
    if count + 1 = 8 then (((byte <<< 1) ||| (cond bit 1 0)) % 256) :: pack_bits rest 0 0
    else pack_bits rest (((byte <<< 1) ||| (cond bit 1 0)) % 256) (count + 1)

/- The `bit_string` of encode_data: concatenation of each symbol's code, with
   `codes.get(&b).unwrap()` panicking (none) on a missing symbol. -/
def bitString : List Nat → List (Nat × List Bool) → Option (List Bool)
  | [], _ => some []
  | b :: rest, codes =>
    match btLookup b codes, bitString rest codes with
    | some c, some bs => some (c ++ bs)
    | _, _ => none

/- fn encode_data(data: &[u8], codes: &BTreeMap<u8, String>) -> Vec<u8> -/
def encode_data (data : List Nat) (codes : List (Nat × List Bool)) : Option (List Nat) :=
  (bitString data codes).map (fun bits => pack_bits bits 0 0)

/- The state of the decode_data loop: the output vector, the current cursor
   node, and the u8 bit_buffer / bit_count pair. -/
structure DecSt where
  out : List Nat
  cur : HTree
  buf : Nat
  cnt : Nat

/- One iteration of the inner bit loop of decode_data, in statement order:
   update bit_buffer and bit_count, then (if the cursor is Some) either emit
   the leaf symbol and reset to the root, or descend by the tested buffer bit,
   then reset buffer and count when bit_count reaches 8. -/
def decStep (root : HTree) (st : DecSt) (bit : Nat) : DecSt :=
  let buf := ((st.buf <<< 1) ||| bit) % 256
  let cnt := st.cnt + 1
  let oc : List Nat × HTree :=
    match st.cur with
    | .nil => (st.out, .nil)
    | .node _ (some s) _ _ => (st.out ++ [s], root)
    | .node _ none l r => (st.out, if buf &&& (1 <<< (cnt - 1)) ≠ 0 then r else l)
  if cnt = 8 then ⟨oc.1, oc.2, 0, 0⟩ else ⟨oc.1, oc.2, buf, cnt⟩

/- `for i in (0..8).rev() { let bit = (byte >> i) & 1; ... }` -/
def bitsOfByte (byte : Nat) : List Nat :=
  [7, 6, 5, 4, 3, 2, 1, 0].map (fun i => (byte >>> i) &&& 1)

/- fn decode_data(compressed_data: &[u8], root: &Option<Box<HuffmanNode>>) -/
def decode_data (compressed : List Nat) (root : HTree) : List Nat :=
  (compressed.foldl (fun st byte => (bitsOfByte byte).foldl (decStep root) st)
    ⟨[], root, 0, 0⟩).out

/- ---------- spec-side definitions (used to state the claims) ---------- -/

/- Modelled from the spec: a PackedPayload packs the bitstream 8 bits per
   byte, most-significant-bit first, zero-padding the final byte's unused
   low-order bits ("PackedPayload", section 3 / section 4.5 of the spec). -/
def bitsToByte (bs : List Bool) : Nat :=
  bs.foldl (fun a b => 2 * a + cond b 1 0) 0

def packSpec : List Bool → List Nat
  | [] => []
  | b0 :: b1 :: b2 :: b3 :: b4 :: b5 :: b6 :: b7 :: rest =>
      bitsToByte [b0, b1, b2, b3, b4, b5, b6, b7] :: packSpec rest
  | short => [bitsToByte (short ++ List.replicate (8 - short.length) false)]

/- Modelled from the spec: "concatenate each Symbol's code in sequence order
   into one bitstream" (section 4.5). -/
def specConcat (data : List Nat) (codes : List (Nat × List Bool)) : List Bool :=
  (data.map (fun b => (btLookup b codes).getD [])).flatten

/- Structural equality of trees in the sense of the spec's tree round-trip
   contract: same shape and same leaf symbols, ignoring the frequency field
   (which serialization does not persist). -/
def stripFreq : HTree → HTree
  | .nil => .nil
  | .node _ s l r => .node 0 s (stripFreq l) (stripFreq r)

def structEq (a b : HTree) : Prop := stripFreq a = stripFreq b

/- The well-formed trees: exactly the shapes build_huffman_tree produces
   (leaves carry a symbol and no children, internal nodes carry no symbol and
   two well-formed children). -/
inductive WFT : HTree → Prop where
  | leaf (f s : Nat) : WFT (.node f (some s) .nil .nil)
  | internal (f : Nat) (l r : HTree) : WFT l → WFT r → WFT (.node f none l r)

/- The (symbol, path) pairs that generate_codes visits, in traversal order. -/
def codePairs : HTree → List Bool → List (Nat × List Bool)
  | .nil, _ => []
  | .node _ (some s) _ _, pfx => [(s, pfx)]
  | .node _ none l r, pfx => codePairs l (pfx ++ [false]) ++ codePairs r (pfx ++ [true])

/- `codeLE a b` : the bit string a is an initial segment of b (so a proper
   initial segment when additionally a ≠ b). -/
def codeLE (a b : List Bool) : Prop := ∃ t, a ++ t = b

/- Keys of a frequency table listed in strictly ascending symbol order. -/
def sortedKeys (m : List (Nat × Nat)) : Prop :=
  m.Pairwise (fun p q => p.1 < q.1)

def sumFreq (l : List HTree) : Nat := (l.map HTree.frequency).sum

def sumCounts (m : List (Nat × Nat)) : Nat := (m.map Prod.snd).sum

/- Big-endian n-bit representation of v (the bits accumulated so far by the
   packing loop); used to relate pack_bits to packSpec. -/
def toBits : Nat → Nat → List Bool
  | 0, _ => []
  | n + 1, v => toBits n (v / 2) ++ [decide (v % 2 = 1)]

/- ---------- helper lemmas ---------- -/

theorem decode_leaf_byte (f s byte : Nat) (out : List Nat) :
    (bitsOfByte byte).foldl (decStep (HTree.node f (some s) .nil .nil))
      ⟨out, HTree.node f (some s) .nil .nil, 0, 0⟩ =
    ⟨out ++ List.replicate 8 s, HTree.node f (some s) .nil .nil, 0, 0⟩ := by
  simp [bitsOfByte, decStep, List.replicate]

theorem decode_leaf_go (f s : Nat) (payload : List Nat) : ∀ out : List Nat,
    (payload.foldl
      (fun st byte => (bitsOfByte byte).foldl (decStep (HTree.node f (some s) .nil .nil)) st)
      ⟨out, HTree.node f (some s) .nil .nil, 0, 0⟩).out
    = out ++ List.replicate (8 * payload.length) s := by
  induction payload with
  | nil => intro out; simp
  | cons b rest ih =>
    intro out
    rw [List.foldl_cons, decode_leaf_byte, ih]
    have h8 : 8 * (b :: rest).length = 8 + 8 * rest.length := by
      simp [List.length_cons]; omega
    rw [h8, List.replicate_add, ← List.append_assoc]

/- ---------- claim theorems (concrete evaluations) ---------- -/

/-- C1: the spec's round-trip property `decode(encode(S)) == S` is the stated
claim; the code violates it.  For S = [97, 98] the pipeline (frequency table,
tree, code table from the tree, encode_data, decode_data with the same tree)
produces the payload [64], and decoding [64] with that same tree yields
[97, 97, 97, 97], not [97, 98]: the decoder steers every descent by the first
bit of the current byte and consumes an extra bit at each leaf. -/
theorem C1_roundtrip_fails_on_ab :
    encode_data [97, 98]
      (generate_codes (build_huffman_tree (calculate_frequencies [97, 98])) [] []) = some [64]
    ∧ decode_data [64] (build_huffman_tree (calculate_frequencies [97, 98]))
      = [97, 97, 97, 97] := by
  exact ⟨rfl, rfl⟩

/-- C2: the spec requires deserialization of a malformed stream (truncated
mid-node or unrecognized tag) to fail with a FormatError and not panic.  The
code has no error path at all: on the single byte [1] (leaf tag with no
payload byte) it panics with an out-of-bounds index (modelled as `none`); on
the single byte [0] it silently returns an Internal node with two missing
children instead of failing; an unrecognized tag such as 7 is silently
treated as an Internal tag. -/
theorem C2_deserialize_malformed :
    deserialize_tree [1] = none
    ∧ deserialize_tree [0] = some (HTree.node 0 none .nil .nil, [])
    ∧ deserialize_tree [7] = some (HTree.node 0 none .nil .nil, []) := by
  exact ⟨rfl, rfl, rfl⟩

/-- C4 counterexample: for the one-symbol frequency table [(65, 3)] the
generated code table maps 65 to the empty bit string, whose length is 0, not
the claimed single bit. -/
theorem C4_cex :
    (btLookup 65 (generate_codes (build_huffman_tree [(65, 3)]) [] [])).map List.length
        = some 0
    ∧ btLookup 65 (generate_codes (build_huffman_tree [(65, 3)]) [] []) = some [] := by
  exact ⟨rfl, rfl⟩

/-- C4 (amended): for a frequency table with exactly one symbol the Tree
Builder produces a single Leaf with no Internal nodes, and the code table
assigns that symbol the empty code (zero bits), the path of the root leaf. -/
theorem C4_single_symbol (s f : Nat) :
    build_huffman_tree [(s, f)] = HTree.node f (some s) .nil .nil
    ∧ generate_codes (build_huffman_tree [(s, f)]) [] [] = [(s, [])] := by
  exact ⟨rfl, rfl⟩

/-- C5 counterexample: for the table [(97, 5), (98, 3)] the left child of the
built tree holds symbol 98 ('b', the lower-frequency symbol), not 97 ('a') as
the claim states. -/
theorem C5_cex :
    (HTree.leftChild (build_huffman_tree [(97, 5), (98, 3)])).symbolOf = some 98
    ∧ ((HTree.leftChild (build_huffman_tree [(97, 5), (98, 3)])).symbolOf == some 97)
        = false := by
  exact ⟨rfl, rfl⟩

/-- C5 (amended): for [(97, 5), (98, 3)] the root merges the two leaves
directly with weight 8, the lower-frequency symbol 98 ('b') is the left child
and 97 ('a') the right child, the codes are one bit each ('a' → 1, 'b' → 0),
and encoding "aaaaabbb" packs to exactly one byte (0xF8) with no padding. -/
theorem C5_two_symbol :
    build_huffman_tree [(97, 5), (98, 3)]
      = HTree.node 8 none (HTree.node 3 (some 98) .nil .nil)
          (HTree.node 5 (some 97) .nil .nil)
    ∧ generate_codes (build_huffman_tree [(97, 5), (98, 3)]) [] []
      = [(97, [true]), (98, [false])]
    ∧ encode_data [97, 97, 97, 97, 97, 98, 98, 98]
        (generate_codes (build_huffman_tree [(97, 5), (98, 3)]) [] [])
      = some [248] := by
  exact ⟨rfl, rfl, rfl⟩

/-- C10: when the tree is a single Leaf holding symbol s, decode_data emits s
once for every bit of the payload: its output is s repeated exactly 8 times
the payload's byte length. -/
theorem C10_single_leaf_decode (payload : List Nat) (f s : Nat) :
    decode_data payload (HTree.node f (some s) .nil .nil)
      = List.replicate (8 * payload.length) s := by
  have h := decode_leaf_go f s payload []
  simpa [decode_data] using h

/- ---------- sort and build lemmas ---------- -/

theorem length_insertByFreq (x : HTree) (l : List HTree) :
    (insertByFreq x l).length = l.length + 1 := by
  induction l with
  | nil => rfl
  | cons y ys ih =>
    simp only [insertByFreq]
    split
    · simp
    · simp [ih]

theorem length_sortByFreq (l : List HTree) : (sortByFreq l).length = l.length := by
  induction l with
  | nil => rfl
  | cons x xs ih => simp [sortByFreq, length_insertByFreq, ih]

theorem mem_insertByFreq (x y : HTree) (l : List HTree) (h : y ∈ insertByFreq x l) :
    y = x ∨ y ∈ l := by
  induction l with
  | nil =>
    simp [insertByFreq] at h
    simp [h]
  | cons z zs ih =>
    simp only [insertByFreq] at h
    split at h
    · simp only [List.mem_cons] at h ⊢
      exact h
    · rcases List.mem_cons.mp h with h1 | h2
      · exact Or.inr (by simp [h1])
      · rcases ih h2 with h3 | h4
        · exact Or.inl h3
        · exact Or.inr (List.mem_cons_of_mem _ h4)

theorem mem_sortByFreq (y : HTree) (l : List HTree) (h : y ∈ sortByFreq l) : y ∈ l := by
  induction l with
  | nil => simp [sortByFreq] at h
  | cons x xs ih =>
    rcases mem_insertByFreq x y (sortByFreq xs) (by simpa [sortByFreq] using h) with h1 | h2
    · simp [h1]
    · exact List.mem_cons_of_mem _ (ih h2)

theorem sumFreq_insertByFreq (x : HTree) (l : List HTree) :
    sumFreq (insertByFreq x l) = x.frequency + sumFreq l := by
  induction l with
  | nil => simp [insertByFreq, sumFreq]
  | cons y ys ih =>
    simp only [insertByFreq]
    split
    · simp [sumFreq]
    · simp [sumFreq] at ih ⊢
      omega

theorem sumFreq_sortByFreq (l : List HTree) : sumFreq (sortByFreq l) = sumFreq l := by
  induction l with
  | nil => rfl
  | cons x xs ih =>
    simp [sortByFreq, sumFreq_insertByFreq, ih]
    simp [sumFreq]

theorem sortByFreq_two (nodes : List HTree) (h : 1 < nodes.length) :
    ∃ l r rest, sortByFreq nodes = l :: r :: rest := by
  have hlen : (sortByFreq nodes).length = nodes.length := length_sortByFreq nodes
  match hs : sortByFreq nodes with
  | [] => rw [hs] at hlen; simp at hlen; omega
  | [x] => rw [hs] at hlen; simp at hlen; omega
  | l :: r :: rest => exact ⟨l, r, rest, rfl⟩

theorem buildLoop_step (fuel : Nat) (nodes : List HTree) (l r : HTree) (rest : List HTree)
    (h : 1 < nodes.length) (hs : sortByFreq nodes = l :: r :: rest) :
    buildLoop (fuel + 1) nodes
      = buildLoop fuel (rest ++ [HTree.node (l.frequency + r.frequency) none l r]) := by
  simp [buildLoop, h, hs]

theorem buildLoop_freq (fuel : Nat) : ∀ nodes : List HTree,
    nodes ≠ [] → nodes.length ≤ fuel + 1 →
    (buildLoop fuel nodes).frequency = sumFreq nodes := by
  induction fuel with
  | zero =>
    intro nodes hne hlen
    match nodes, hne with
    | [x], _ => simp [buildLoop, sumFreq]
    | x :: y :: rest, _ => simp [List.length_cons] at hlen
  | succ fuel ih =>
    intro nodes hne hlen
    by_cases h : 1 < nodes.length
    · obtain ⟨l, r, rest, hs⟩ := sortByFreq_two nodes h
      rw [buildLoop_step fuel nodes l r rest h hs]
      have hlen2 : (sortByFreq nodes).length = nodes.length := length_sortByFreq nodes
      rw [hs] at hlen2
      have hne2 : rest ++ [HTree.node (l.frequency + r.frequency) none l r] ≠ [] := by
        simp
      have hlen3 :
          (rest ++ [HTree.node (l.frequency + r.frequency) none l r]).length ≤ fuel + 1 := by
        simp only [List.length_append, List.length_cons, List.length_nil] at *
        omega
      rw [ih _ hne2 hlen3]
      have hsum := sumFreq_sortByFreq nodes
      rw [hs] at hsum
      simp only [sumFreq, List.map_append, List.map_cons, List.map_nil, List.sum_append,
        List.sum_cons, List.sum_nil, HTree.frequency] at hsum ⊢
      omega
    · match nodes, hne with
      | [x], _ => simp [buildLoop, sumFreq]
      | x :: y :: rest, _ => simp [List.length_cons] at h

theorem buildLoop_wf (fuel : Nat) : ∀ nodes : List HTree,
    (∀ t ∈ nodes, WFT t) → nodes ≠ [] → nodes.length ≤ fuel + 1 →
    WFT (buildLoop fuel nodes) := by
  induction fuel with
  | zero =>
    intro nodes hall hne hlen
    match nodes, hne with
    | [x], _ => simpa [buildLoop] using hall x (by simp)
    | x :: y :: rest, _ => simp [List.length_cons] at hlen
  | succ fuel ih =>
    intro nodes hall hne hlen
    by_cases h : 1 < nodes.length
    · obtain ⟨l, r, rest, hs⟩ := sortByFreq_two nodes h
      rw [buildLoop_step fuel nodes l r rest h hs]
      have hlen2 : (sortByFreq nodes).length = nodes.length := length_sortByFreq nodes
      rw [hs] at hlen2
      have hsorted : ∀ t ∈ sortByFreq nodes, WFT t := fun t ht =>
        hall t (mem_sortByFreq t nodes ht)
      have hl : WFT l := hsorted l (by rw [hs]; simp)
      have hr : WFT r := hsorted r (by rw [hs]; simp)
      apply ih
      · intro t ht
        rcases List.mem_append.mp ht with h1 | h2
        · exact hsorted t (by rw [hs]; simp [h1])
        · have : t = HTree.node (l.frequency + r.frequency) none l r := by simpa using h2
          rw [this]
          exact WFT.internal _ l r hl hr
      · simp
      · simp only [List.length_append, List.length_cons, List.length_nil] at *
        omega
    · match nodes, hne with
      | [x], _ => simpa [buildLoop] using hall x (by simp)
      | x :: y :: rest, _ => simp [List.length_cons] at h

theorem build_wf (freqs : List (Nat × Nat)) (h : freqs ≠ []) :
    WFT (build_huffman_tree freqs) := by
  unfold build_huffman_tree
  apply buildLoop_wf
  · intro t ht
    simp only [List.mem_map] at ht
    obtain ⟨p, _, rfl⟩ := ht
    exact WFT.leaf p.2 p.1
  · intro hmap
    exact h (by simpa using hmap)
  · simp

/- ---------- serialize / deserialize round trip ---------- -/

theorem stripFreq_idem (t : HTree) : stripFreq (stripFreq t) = stripFreq t := by
  induction t with
  | nil => rfl
  | node f s l r ihl ihr => simp [stripFreq, ihl, ihr]

theorem deser_ser (t : HTree) (hw : WFT t) : ∀ (fuel : Nat) (rest : List Nat),
    (serialize_tree t ++ rest).length < fuel →
    deserializeAux fuel (serialize_tree t ++ rest) = some (stripFreq t, rest) := by
  induction hw with
  | leaf f s =>
    intro fuel rest hlen
    match fuel with
    | 0 => exact absurd hlen (Nat.not_lt_zero _)
    | fuel + 1 => simp [serialize_tree, deserializeAux, stripFreq]
  | internal f l r hl hr ihl ihr =>
    intro fuel rest hlen
    match fuel with
    | 0 => exact absurd hlen (Nat.not_lt_zero _)
    | fuel + 1 =>
      have hassoc : serialize_tree (HTree.node f none l r) ++ rest
          = 0 :: (serialize_tree l ++ (serialize_tree r ++ rest)) := by
        simp [serialize_tree, List.append_assoc]
      simp only [serialize_tree, List.length_append, List.length_cons] at hlen
      have h1 : deserializeAux fuel (serialize_tree l ++ (serialize_tree r ++ rest))
          = some (stripFreq l, serialize_tree r ++ rest) := by
        apply ihl
        simp only [List.length_append]
        omega
      have h2 : deserializeAux fuel (serialize_tree r ++ rest)
          = some (stripFreq r, rest) := by
        apply ihr
        simp only [List.length_append]
        omega
      rw [hassoc]
      simp [deserializeAux, h1, h2, stripFreq]

/-- C3: for every non-empty frequency table, deserializing the serialization
of the Huffman tree built from it consumes the whole stream and yields a tree
structurally equal to the built tree (same shape, same leaf symbols in the
same positions; the frequency field is not persisted and is compared
stripped). -/
theorem C3_tree_roundtrip (freqs : List (Nat × Nat)) (h : freqs ≠ []) :
    ∃ t, deserialize_tree (serialize_tree (build_huffman_tree freqs)) = some (t, [])
      ∧ structEq t (build_huffman_tree freqs) := by
  refine ⟨stripFreq (build_huffman_tree freqs), ?_, stripFreq_idem _⟩
  have hw := build_wf freqs h
  have hd := deser_ser _ hw ((serialize_tree (build_huffman_tree freqs)).length + 1) []
  rw [List.append_nil] at hd
  exact hd (by omega)

/-- C3 witness: the round trip at the concrete one-entry table [(65, 3)]. -/
theorem C3_tree_roundtrip_witness :
    ∃ t, deserialize_tree (serialize_tree (build_huffman_tree [(65, 3)])) = some (t, [])
      ∧ structEq t (build_huffman_tree [(65, 3)]) :=
  C3_tree_roundtrip [(65, 3)] (by decide)

/- ---------- frequency-sum lemmas (claim C8) ---------- -/

theorem sumCounts_bump (m : List (Nat × Nat)) (b : Nat) :
    sumCounts (bump m b) = sumCounts m + 1 := by
  induction m with
  | nil => simp [bump, sumCounts]
  | cons p rest ih =>
    obtain ⟨k, v⟩ := p
    simp only [bump]
    split
    · simp [sumCounts]
      omega
    · split
      · simp [sumCounts]
        omega
      · simp [sumCounts] at ih ⊢
        omega

theorem bump_ne_nil (m : List (Nat × Nat)) (b : Nat) : bump m b ≠ [] := by
  cases m with
  | nil => simp [bump]
  | cons p rest =>
    obtain ⟨k, v⟩ := p
    simp only [bump]
    split
    · simp
    · split <;> simp

theorem foldl_bump_ne_nil (ds : List Nat) : ∀ m : List (Nat × Nat),
    m ≠ [] → ds.foldl bump m ≠ [] := by
  induction ds with
  | nil => intro m hm; simpa using hm
  | cons d rest ih =>
    intro m _
    rw [List.foldl_cons]
    exact ih (bump m d) (bump_ne_nil m d)

theorem calc_freq_ne_nil (data : List Nat) (h : data ≠ []) :
    calculate_frequencies data ≠ [] := by
  match data, h with
  | d :: ds, _ =>
    unfold calculate_frequencies
    rw [List.foldl_cons]
    exact foldl_bump_ne_nil ds (bump [] d) (bump_ne_nil [] d)

theorem sumCounts_foldl (ds : List Nat) : ∀ m : List (Nat × Nat),
    sumCounts (ds.foldl bump m) = sumCounts m + ds.length := by
  induction ds with
  | nil => intro m; simp
  | cons d rest ih =>
    intro m
    rw [List.foldl_cons, ih (bump m d), sumCounts_bump]
    simp
    omega

theorem sumFreq_leaves (freqs : List (Nat × Nat)) :
    sumFreq (freqs.map (fun p => HTree.node p.2 (some p.1) .nil .nil)) = sumCounts freqs := by
  induction freqs with
  | nil => rfl
  | cons p rest ih => simp [sumFreq, sumCounts, HTree.frequency] at ih ⊢; omega

/-- C8: for every non-empty input byte sequence, the frequency stored at the
root of the Huffman tree built from the input's frequency table equals the
length of the input. -/
theorem C8_root_weight (data : List Nat) (h : data ≠ []) :
    (build_huffman_tree (calculate_frequencies data)).frequency = data.length := by
  unfold build_huffman_tree
  have hne : (calculate_frequencies data).map
      (fun p => HTree.node p.2 (some p.1) .nil .nil) ≠ [] := by
    intro hmap
    exact calc_freq_ne_nil data h (by simpa using hmap)
  have hlen : ((calculate_frequencies data).map
      (fun p => HTree.node p.2 (some p.1) .nil .nil)).length
      ≤ (calculate_frequencies data).length + 1 := by simp
  rw [buildLoop_freq (calculate_frequencies data).length _ hne hlen, sumFreq_leaves]
  unfold calculate_frequencies
  rw [sumCounts_foldl]
  simp [sumCounts]

/-- C8 witness: the root weight at the concrete input [97, 97, 98]. -/
theorem C8_root_weight_witness :
    (build_huffman_tree (calculate_frequencies [97, 97, 98])).frequency
      = [97, 97, 98].length :=
  C8_root_weight [97, 97, 98] (by decide)

/- ---------- frequency-table lemmas (claim C9) ---------- -/

theorem btLookup_mem {α : Type} (b : Nat) (m : List (Nat × α)) (v : α)
    (h : btLookup b m = some v) : (b, v) ∈ m := by
  induction m with
  | nil => simp [btLookup] at h
  | cons p rest ih =>
    obtain ⟨k, w⟩ := p
    by_cases hbk : b = k
    · subst hbk
      simp [btLookup] at h
      simp [h]
    · simp only [btLookup, if_neg hbk] at h
      exact List.mem_cons_of_mem _ (ih h)

theorem btLookup_none (b : Nat) (m : List (Nat × Nat)) (h : ∀ p ∈ m, b ≠ p.1) :
    btLookup b m = none := by
  induction m with
  | nil => rfl
  | cons p rest ih =>
    obtain ⟨k, v⟩ := p
    have hbk : b ≠ k := h (k, v) (by simp)
    simp only [btLookup, if_neg hbk]
    exact ih (fun q hq => h q (by simp [hq]))

theorem keys_bump (m : List (Nat × Nat)) (b : Nat) :
    ∀ q ∈ bump m b, q.1 = b ∨ ∃ p ∈ m, q.1 = p.1 := by
  induction m with
  | nil =>
    intro q hq
    simp [bump] at hq
    simp [hq]
  | cons p rest ih =>
    obtain ⟨k, v⟩ := p
    intro q hq
    simp only [bump] at hq
    split at hq
    · rcases List.mem_cons.mp hq with h1 | h2
      · simp [h1]
      · rcases List.mem_cons.mp h2 with h3 | h4
        · exact Or.inr ⟨(k, v), by simp, by simp [h3]⟩
        · exact Or.inr ⟨q, by simp [h4], rfl⟩
    · split at hq
      · rcases List.mem_cons.mp hq with h1 | h2
        · exact Or.inr ⟨(k, v), by simp, by simp [h1]⟩
        · exact Or.inr ⟨q, by simp [h2], rfl⟩
      · rcases List.mem_cons.mp hq with h1 | h2
        · exact Or.inr ⟨(k, v), by simp, by simp [h1]⟩
        · rcases ih q h2 with h3 | h4
          · simp [h3]
          · obtain ⟨p2, hp2, he⟩ := h4
            exact Or.inr ⟨p2, by simp [hp2], he⟩

theorem sortedKeys_bump (m : List (Nat × Nat)) (b : Nat) (h : sortedKeys m) :
    sortedKeys (bump m b) := by
  induction m with
  | nil => simp [bump, sortedKeys]
  | cons p rest ih =>
    obtain ⟨k, v⟩ := p
    rcases List.pairwise_cons.mp h with ⟨hk, hrest⟩
    simp only [bump]
    split
    · rename_i hb
      refine List.Pairwise.cons ?_ h
      intro q hq
      rcases List.mem_cons.mp hq with h1 | h2
      · simp [h1]
        exact hb
      · exact lt_trans hb (hk q h2)
    · split
      · exact List.Pairwise.cons hk hrest
      · rename_i hb1 hb2
        have hkb : k < b := by omega
        refine List.Pairwise.cons ?_ (ih hrest)
        intro q hq
        rcases keys_bump rest b q hq with h1 | h2
        · rw [h1]; exact hkb
        · obtain ⟨p2, hp2, he⟩ := h2
          rw [he]
          exact hk p2 hp2

theorem bump_pos (m : List (Nat × Nat)) (b : Nat) (h : ∀ p ∈ m, 0 < p.2) :
    ∀ p ∈ bump m b, 0 < p.2 := by
  induction m with
  | nil =>
    intro p hp
    simp [bump] at hp
    simp [hp]
  | cons q rest ih =>
    obtain ⟨k, v⟩ := q
    intro p hp
    have hv : 0 < v := h (k, v) (by simp)
    simp only [bump] at hp
    split at hp
    · rcases List.mem_cons.mp hp with h1 | h2
      · simp [h1]
      · exact h p h2
    · split at hp
      · rcases List.mem_cons.mp hp with h1 | h2
        · simp [h1]
        · exact h p (by simp [h2])
      · rcases List.mem_cons.mp hp with h1 | h2
        · simp [h1]
          omega
        · exact ih (fun q2 hq2 => h q2 (by simp [hq2])) p h2

theorem btLookup_bump_self (m : List (Nat × Nat)) (b : Nat) (h : sortedKeys m) :
    btLookup b (bump m b) = some ((btLookup b m).getD 0 + 1) := by
  induction m with
  | nil => simp [bump, btLookup]
  | cons p rest ih =>
    obtain ⟨k, v⟩ := p
    rcases List.pairwise_cons.mp h with ⟨hk, hrest⟩
    simp only [bump]
    split
    · rename_i hb
      have hbk : b ≠ k := by omega
      have hnone : btLookup b rest = none := by
        apply btLookup_none
        intro q hq
        have := hk q hq
        omega
      simp [btLookup, hbk, hnone]
    · split
      · rename_i _ hb
        subst hb
        simp [btLookup]
      · rename_i hb1 hb2
        have hbk : b ≠ k := by omega
        simp only [btLookup, if_neg hbk]
        exact ih hrest

theorem btLookup_bump_other (m : List (Nat × Nat)) (b c : Nat) (h : c ≠ b) :
    btLookup c (bump m b) = btLookup c m := by
  induction m with
  | nil => simp [bump, btLookup, h]
  | cons p rest ih =>
    obtain ⟨k, v⟩ := p
    simp only [bump]
    split
    · rename_i hb
      simp [btLookup, h]
    · split
      · rename_i _ hb
        subst hb
        have hck : c ≠ b := h
        simp [btLookup, hck]
      · by_cases hck : c = k
        · simp [btLookup, hck]
        · simp only [btLookup, if_neg hck]
          exact ih

theorem calc_invariant (ds : List Nat) : ∀ m : List (Nat × Nat),
    sortedKeys m → (∀ p ∈ m, 0 < p.2) →
    sortedKeys (ds.foldl bump m) ∧ (∀ p ∈ ds.foldl bump m, 0 < p.2)
      ∧ ∀ b, (btLookup b (ds.foldl bump m)).getD 0
              = (btLookup b m).getD 0 + ds.count b := by
  induction ds with
  | nil =>
    intro m h1 h2
    refine ⟨h1, h2, ?_⟩
    intro b
    simp
  | cons d rest ih =>
    intro m h1 h2
    rw [List.foldl_cons]
    obtain ⟨g1, g2, g3⟩ := ih (bump m d) (sortedKeys_bump m d h1) (bump_pos m d h2)
    refine ⟨g1, g2, ?_⟩
    intro b
    rw [g3 b]
    by_cases hbd : b = d
    · subst hbd
      rw [btLookup_bump_self m b h1]
      simp [List.count_cons]
      omega
    · rw [btLookup_bump_other m d b hbd]
      simp [List.count_cons, hbd]

/-- C9: the Frequency Counter returns a table whose keys are listed in
strictly ascending symbol order and map each byte to its exact occurrence
count — a byte absent from the input has no entry (lookup is none) and a byte
occurring n > 0 times maps to n, so the keys are exactly the distinct bytes
of the input; the empty input yields the empty table. -/
theorem C9_frequency_table (data : List Nat) :
    sortedKeys (calculate_frequencies data)
    ∧ (∀ b, btLookup b (calculate_frequencies data)
        = if data.count b = 0 then none else some (data.count b))
    ∧ calculate_frequencies [] = [] := by
  obtain ⟨g1, g2, g3⟩ :=
    calc_invariant data [] (by simp [sortedKeys]) (by simp)
  rw [show List.foldl bump [] data = calculate_frequencies data from rfl] at g1 g2 g3
  refine ⟨g1, ?_, rfl⟩
  intro b
  have hb := g3 b
  simp only [btLookup, Option.getD_none] at hb
  by_cases hc : data.count b = 0
  · rw [if_pos hc]
    cases hlk : btLookup b (calculate_frequencies data) with
    | none => rfl
    | some v =>
      have hmem := btLookup_mem b _ v hlk
      have hpos := g2 (b, v) hmem
      rw [hlk] at hb
      simp at hb hpos
      omega
  · rw [if_neg hc]
    cases hlk : btLookup b (calculate_frequencies data) with
    | none =>
      rw [hlk] at hb
      simp at hb
      omega
    | some v =>
      rw [hlk] at hb
      simp at hb
      rw [hb]

/- ---------- code-table lemmas (claim C6) ---------- -/

theorem btLookup_insert_self {α : Type} (k : Nat) (v : α) (m : List (Nat × α)) :
    btLookup k (btInsert k v m) = some v := by
  induction m with
  | nil => simp [btInsert, btLookup]
  | cons p rest ih =>
    obtain ⟨k2, v2⟩ := p
    simp only [btInsert]
    split
    · simp [btLookup]
    · split
      · simp [btLookup]
      · rename_i h1 h2
        simp only [btLookup, if_neg h2]
        exact ih

theorem btLookup_insert_other {α : Type} (k c : Nat) (v : α) (m : List (Nat × α))
    (h : c ≠ k) : btLookup c (btInsert k v m) = btLookup c m := by
  induction m with
  | nil => simp [btInsert, btLookup, h]
  | cons p rest ih =>
    obtain ⟨k2, v2⟩ := p
    simp only [btInsert]
    split
    · simp [btLookup, h]
    · split
      · rename_i _ hk
        subst hk
        simp [btLookup, h]
      · by_cases hck : c = k2
        · simp [btLookup, hck]
        · simp only [btLookup, if_neg hck]
          exact ih

theorem gc_lookup (t : HTree) : ∀ (pfx : List Bool) (m : List (Nat × List Bool)) (s : Nat),
    btLookup s (generate_codes t pfx m) = btLookup s m
    ∨ ∃ c, btLookup s (generate_codes t pfx m) = some c ∧ (s, c) ∈ codePairs t pfx := by
  induction t with
  | nil => intro pfx m s; left; rfl
  | node f sym l r ihl ihr =>
    intro pfx m s
    cases sym with
    | some s2 =>
      by_cases hss : s = s2
      · subst hss
        exact Or.inr ⟨pfx, btLookup_insert_self s pfx m, by simp [codePairs]⟩
      · left
        exact btLookup_insert_other s2 s pfx m hss
    | none =>
      simp only [generate_codes]
      rcases ihr (pfx ++ [true]) (generate_codes l (pfx ++ [false]) m) s with h1 | h1
      · rw [h1]
        rcases ihl (pfx ++ [false]) m s with h2 | h2
        · exact Or.inl h2
        · obtain ⟨c, hc1, hc2⟩ := h2
          exact Or.inr ⟨c, hc1, by simp [codePairs, hc2]⟩
      · obtain ⟨c, hc1, hc2⟩ := h1
        exact Or.inr ⟨c, hc1, by simp [codePairs, hc2]⟩

theorem codePairs_pfx (t : HTree) : ∀ (pfx : List Bool) (s : Nat) (c : List Bool),
    (s, c) ∈ codePairs t pfx → ∃ q, c = pfx ++ q := by
  induction t with
  | nil => intro pfx s c h; simp [codePairs] at h
  | node f sym l r ihl ihr =>
    intro pfx s c h
    cases sym with
    | some s2 =>
      simp [codePairs] at h
      exact ⟨[], by simp [h.2]⟩
    | none =>
      simp only [codePairs, List.mem_append] at h
      rcases h with h1 | h1
      · obtain ⟨q, hq⟩ := ihl _ _ _ h1
        exact ⟨false :: q, by simp [hq]⟩
      · obtain ⟨q, hq⟩ := ihr _ _ _ h1
        exact ⟨true :: q, by simp [hq]⟩

theorem codePairs_not_le (t : HTree) : ∀ (pfx : List Bool) (s1 : Nat) (c1 : List Bool)
    (s2 : Nat) (c2 : List Bool),
    (s1, c1) ∈ codePairs t pfx → (s2, c2) ∈ codePairs t pfx → s1 ≠ s2 →
    ¬ codeLE c1 c2 := by
  induction t with
  | nil => intro pfx s1 c1 s2 c2 h1 _ _; simp [codePairs] at h1
  | node f sym l r ihl ihr =>
    intro pfx s1 c1 s2 c2 h1 h2 hne
    cases sym with
    | some s0 =>
      simp [codePairs] at h1 h2
      exact absurd (h1.1.trans h2.1.symm) hne
    | none =>
      simp only [codePairs, List.mem_append] at h1 h2
      rcases h1 with ha | ha <;> rcases h2 with hb | hb
      · exact ihl _ _ _ _ _ ha hb hne
      · obtain ⟨q1, hq1⟩ := codePairs_pfx l _ _ _ ha
        obtain ⟨q2, hq2⟩ := codePairs_pfx r _ _ _ hb
        intro hle
        obtain ⟨tl, htl⟩ := hle
        rw [hq1, hq2] at htl
        simp only [List.append_assoc, List.singleton_append, List.cons_append] at htl
        have hca := List.append_cancel_left htl
        simp at hca
      · obtain ⟨q1, hq1⟩ := codePairs_pfx r _ _ _ ha
        obtain ⟨q2, hq2⟩ := codePairs_pfx l _ _ _ hb
        intro hle
        obtain ⟨tl, htl⟩ := hle
        rw [hq1, hq2] at htl
        simp only [List.append_assoc, List.singleton_append, List.cons_append] at htl
        have hca := List.append_cancel_left htl
        simp at hca
      · exact ihr _ _ _ _ _ ha hb hne

/-- C6: in the code table generated from a Huffman tree built from any
frequency table, two distinct symbols never share a code and neither one's
code is an initial segment (in particular a proper prefix) of the other's. -/
theorem C6_codes_distinct_not_pfx (freqs : List (Nat × Nat)) (s1 s2 : Nat)
    (c1 c2 : List Bool)
    (h1 : btLookup s1 (generate_codes (build_huffman_tree freqs) [] []) = some c1)
    (h2 : btLookup s2 (generate_codes (build_huffman_tree freqs) [] []) = some c2)
    (hne : s1 ≠ s2) :
    c1 ≠ c2 ∧ ¬ codeLE c1 c2 := by
  rcases gc_lookup (build_huffman_tree freqs) [] [] s1 with hm1 | hm1
  · rw [h1] at hm1
    simp [btLookup] at hm1
  · obtain ⟨d1, hd1, hp1⟩ := hm1
    have he1 : d1 = c1 := by
      have := hd1.symm.trans h1
      injection this
    subst he1
    rcases gc_lookup (build_huffman_tree freqs) [] [] s2 with hm2 | hm2
    · rw [h2] at hm2
      simp [btLookup] at hm2
    · obtain ⟨d2, hd2, hp2⟩ := hm2
      have he2 : d2 = c2 := by
        have := hd2.symm.trans h2
        injection this
      subst he2
      have hnotle := codePairs_not_le (build_huffman_tree freqs) [] s1 d1 s2 d2 hp1 hp2 hne
      refine ⟨?_, hnotle⟩
      intro hcc
      exact hnotle ⟨[], by simp [hcc]⟩

/-- C6 witness: the two codes of the concrete table [(97, 5), (98, 3)] are
distinct and neither is an initial segment of the other. -/
theorem C6_witness :
    btLookup 97 (generate_codes (build_huffman_tree [(97, 5), (98, 3)]) [] []) = some [true]
    ∧ btLookup 98 (generate_codes (build_huffman_tree [(97, 5), (98, 3)]) [] [])
        = some [false]
    ∧ ([true] ≠ [false] ∧ ¬ codeLE [true] [false]) :=
  ⟨rfl, rfl,
    C6_codes_distinct_not_pfx [(97, 5), (98, 3)] 97 98 [true] [false] rfl rfl (by decide)⟩

/- ---------- bit-packing lemmas (claim C7) ---------- -/

theorem two_mul_or_one (a : Nat) : (2 * a) ||| 1 = 2 * a + 1 := by
  apply Nat.eq_of_testBit_eq
  intro i
  cases i with
  | zero =>
    simp [Nat.testBit_lor, Nat.testBit_zero]
    omega
  | succ j =>
    rw [Nat.testBit_lor]
    simp only [Nat.testBit_succ]
    have h1 : (2 * a) / 2 = a := by omega
    have h2 : (2 * a + 1) / 2 = a := by omega
    have h3 : (1 : Nat) / 2 = 0 := by omega
    rw [h1, h2, h3]
    simp [Nat.zero_testBit]

theorem two_mul_or_bit (a c : Nat) (h : c < 2) : (2 * a) ||| c = 2 * a + c := by
  match c, h with
  | 0, _ => simp
  | 1, _ => exact two_mul_or_one a

theorem toBits_length (n : Nat) : ∀ v, (toBits n v).length = n := by
  induction n with
  | zero => intro v; rfl
  | succ m ih => intro v; simp [toBits, ih]

theorem bitsToByte_snoc (xs : List Bool) (b : Bool) :
    bitsToByte (xs ++ [b]) = 2 * bitsToByte xs + cond b 1 0 := by
  simp [bitsToByte, List.foldl_append]

theorem bitsToByte_toBits (n : Nat) : ∀ v, v < 2 ^ n → bitsToByte (toBits n v) = v := by
  induction n with
  | zero =>
    intro v hv
    have hv0 : v = 0 := by simpa using hv
    simp [hv0, toBits, bitsToByte]
  | succ m ih =>
    intro v hv
    simp only [toBits]
    rw [bitsToByte_snoc]
    have hpow : (2:Nat) ^ (m + 1) = 2 ^ m * 2 := pow_succ 2 m
    have hv2 : v / 2 < 2 ^ m := by omega
    rw [ih (v / 2) hv2]
    have hcond : cond (decide (v % 2 = 1)) 1 0 = v % 2 := by
      rcases Nat.mod_two_eq_zero_or_one v with h | h <;> simp [h]
    rw [hcond]
    omega

theorem bitsToByte_pad (k : Nat) : ∀ xs : List Bool,
    bitsToByte (xs ++ List.replicate k false) = bitsToByte xs * 2 ^ k := by
  induction k with
  | zero => intro xs; simp
  | succ m ih =>
    intro xs
    have h : xs ++ List.replicate (m + 1) false
        = (xs ++ [false]) ++ List.replicate m false := by
      simp [List.replicate_succ, List.append_assoc]
    rw [h, ih (xs ++ [false]), bitsToByte_snoc]
    simp only [cond_false, Nat.add_zero, Nat.pow_succ]
    ring

theorem list_len8 (l : List Bool) (h : l.length = 8) :
    ∃ b0 b1 b2 b3 b4 b5 b6 b7, l = [b0, b1, b2, b3, b4, b5, b6, b7] := by
  match l with
  | [b0, b1, b2, b3, b4, b5, b6, b7] => exact ⟨b0, b1, b2, b3, b4, b5, b6, b7, rfl⟩
  | [] => simp at h
  | [_] => simp at h
  | [_, _] => simp at h
  | [_, _, _] => simp at h
  | [_, _, _, _] => simp at h
  | [_, _, _, _, _] => simp at h
  | [_, _, _, _, _, _] => simp at h
  | [_, _, _, _, _, _, _] => simp at h
  | _ :: _ :: _ :: _ :: _ :: _ :: _ :: _ :: _ :: _ =>
    simp [List.length_cons] at h

theorem packSpec_append8 (l8 rest : List Bool) (h : l8.length = 8) :
    packSpec (l8 ++ rest) = bitsToByte l8 :: packSpec rest := by
  obtain ⟨b0, b1, b2, b3, b4, b5, b6, b7, rfl⟩ := list_len8 l8 h
  rfl

theorem packSpec_short (l : List Bool) (h1 : l ≠ []) (h2 : l.length < 8) :
    packSpec l = [bitsToByte (l ++ List.replicate (8 - l.length) false)] := by
  match l, h1 with
  | [], h1 => exact absurd rfl h1
  | [_], _ => rfl
  | [_, _], _ => rfl
  | [_, _, _], _ => rfl
  | [_, _, _, _], _ => rfl
  | [_, _, _, _, _], _ => rfl
  | [_, _, _, _, _, _], _ => rfl
  | [_, _, _, _, _, _, _], _ => rfl
  | _ :: _ :: _ :: _ :: _ :: _ :: _ :: _ :: _, _ =>
    exfalso
    simp [List.length_cons] at h2
    omega

theorem pack_eq (bs : List Bool) : ∀ byte count : Nat, count < 8 → byte < 2 ^ count →
    pack_bits bs byte count = packSpec (toBits count byte ++ bs) := by
  induction bs with
  | nil =>
    intro byte count hc hb
    by_cases h0 : 0 < count
    · simp only [pack_bits, if_pos h0, List.append_nil]
      rw [packSpec_short (toBits count byte)
        (by intro he; have := toBits_length count byte; rw [he] at this; simp at this; omega)
        (by rw [toBits_length]; omega)]
      rw [toBits_length, bitsToByte_pad, bitsToByte_toBits count byte hb, Nat.shiftLeft_eq]
      have hlt : byte * 2 ^ (8 - count) < 256 := by
        have h1 : byte * 2 ^ (8 - count) < 2 ^ count * 2 ^ (8 - count) :=
          Nat.mul_lt_mul_of_lt_of_le hb (le_refl _) (Nat.pos_pow_of_pos _ (by omega))
        have h2 : (2:Nat) ^ count * 2 ^ (8 - count) = 2 ^ 8 := by
          rw [← pow_add]
          congr 1
          omega
        omega
      rw [Nat.mod_eq_of_lt hlt]
    · have hc0 : count = 0 := by omega
      subst hc0
      simp [pack_bits, toBits, packSpec]
  | cons bit rest ih =>
    intro byte count hc hb
    by_cases h8 : count + 1 = 8
    · have hc7 : count = 7 := by omega
      subst hc7
      have hstep : pack_bits (bit :: rest) byte 7
          = (((byte <<< 1) ||| (cond bit 1 0)) % 256) :: pack_bits rest 0 0 := by
        simp [pack_bits]
      rw [hstep]
      have hb128 : byte < 128 := by simpa using hb
      have hb2 : (byte <<< 1) ||| cond bit 1 0 = 2 * byte + cond bit 1 0 := by
        rw [Nat.shiftLeft_eq]
        have hm : byte * 2 ^ 1 = 2 * byte := by ring
        rw [hm]
        exact two_mul_or_bit byte _ (by cases bit <;> simp)
      have hlt : 2 * byte + cond bit 1 0 < 256 := by
        cases bit <;> simp <;> omega
      rw [hb2, Nat.mod_eq_of_lt hlt, ih 0 0 (by omega) (by simp)]
      conv_lhs => rw [show toBits 0 0 = ([] : List Bool) from rfl, List.nil_append]
      have hsplit : toBits 7 byte ++ bit :: rest = (toBits 7 byte ++ [bit]) ++ rest := by
        simp [List.append_assoc]
      rw [hsplit, packSpec_append8 _ rest (by simp [toBits_length]),
        bitsToByte_snoc, bitsToByte_toBits 7 byte (by simpa using hb)]
    · simp only [pack_bits]
      rw [if_neg h8]
      have hb2 : ((byte <<< 1) ||| cond bit 1 0) % 256 = 2 * byte + cond bit 1 0 := by
        rw [Nat.shiftLeft_eq]
        have hm : byte * 2 ^ 1 = 2 * byte := by ring
        rw [hm, two_mul_or_bit byte _ (by cases bit <;> simp)]
        apply Nat.mod_eq_of_lt
        have hpow : (2:Nat) ^ count ≤ 2 ^ 6 :=
          Nat.pow_le_pow_right (by omega) (by omega)
        have h64 : (2:Nat) ^ 6 = 64 := by norm_num
        cases bit <;> simp <;> omega
      rw [hb2, ih (2 * byte + cond bit 1 0) (count + 1) (by omega)
        (by
          have hpow : (2:Nat) ^ (count + 1) = 2 ^ count * 2 := pow_succ 2 count
          cases bit <;> simp <;> omega)]
      have ht : toBits (count + 1) (2 * byte + cond bit 1 0) = toBits count byte ++ [bit] := by
        simp only [toBits]
        have hdiv : (2 * byte + cond bit 1 0) / 2 = byte := by
          cases bit <;> (simp; try omega)
        have hmod : decide ((2 * byte + cond bit 1 0) % 2 = 1) = bit := by
          cases bit <;> (simp; try omega)
        rw [hdiv, hmod]
      rw [ht, List.append_assoc]
      simp

theorem packSpec_length (n : Nat) : ∀ bs : List Bool, bs.length ≤ n →
    (packSpec bs).length = (bs.length + 7) / 8 := by
  induction n with
  | zero =>
    intro bs h
    have hbs : bs = [] := List.length_eq_zero.mp (by omega)
    simp [hbs, packSpec]
  | succ m ih =>
    intro bs h
    by_cases h0 : bs = []
    · simp [h0, packSpec]
    · by_cases h8 : bs.length < 8
      · rw [packSpec_short bs h0 h8]
        have hlen : bs.length ≠ 0 := fun he => h0 (List.length_eq_zero.mp he)
        simp only [List.length_cons, List.length_nil]
        omega
      · have hsplit := (List.take_append_drop 8 bs).symm
        have htk : (bs.take 8).length = 8 := by
          simp [List.length_take]
          omega
        conv_lhs => rw [hsplit]
        rw [packSpec_append8 _ _ htk]
        rw [List.length_cons, ih (bs.drop 8) (by simp [List.length_drop]; omega)]
        simp only [List.length_drop]
        omega

/- ---------- encoder (claim C7) ---------- -/

theorem bitString_covers (data : List Nat) (codes : List (Nat × List Bool))
    (h : ∀ b ∈ data, (btLookup b codes).isSome) :
    bitString data codes = some (specConcat data codes) := by
  induction data with
  | nil => simp [bitString, specConcat]
  | cons d rest ih =>
    have hd := h d (by simp)
    obtain ⟨c, hc⟩ := Option.isSome_iff_exists.mp hd
    simp only [bitString]
    rw [hc, ih (fun b hb => h b (by simp [hb]))]
    simp [specConcat, hc]

/-- C7: when the code table covers every symbol of the input, encode_data
returns exactly the concatenation of the symbols' codes in sequence order,
packed 8 bits per byte most-significant-bit first with the final byte's
unused low-order bits zero-padded, and the payload's byte length is the bit
count divided by 8 rounded up. -/
theorem C7_encoder (data : List Nat) (codes : List (Nat × List Bool))
    (h : ∀ b ∈ data, (btLookup b codes).isSome) :
    encode_data data codes = some (packSpec (specConcat data codes))
    ∧ (packSpec (specConcat data codes)).length
        = ((specConcat data codes).length + 7) / 8 := by
  constructor
  · unfold encode_data
    rw [bitString_covers data codes h]
    simp only [Option.map_some']
    congr 1
    have hp := pack_eq (specConcat data codes) 0 0 (by omega) (by simp)
    simpa [toBits] using hp
  · exact packSpec_length (specConcat data codes).length _ (le_refl _)

/-- C7 witness: the encoder at the concrete input [97, 98] with the code
table 97 → 1, 98 → 01; the three code bits pack into the single byte
0b10100000 = 160. -/
theorem C7_encoder_witness :
    encode_data [97, 98] [(97, [true]), (98, [false, true])]
      = some (packSpec (specConcat [97, 98] [(97, [true]), (98, [false, true])]))
    ∧ encode_data [97, 98] [(97, [true]), (98, [false, true])] = some [160] :=
  ⟨(C7_encoder [97, 98] [(97, [true]), (98, [false, true])] (by decide)).1, by decide⟩
